import Mathlib

/-!
Shallow embedding of the LRU cache `LruCacheBase` from
`src/common/lru_cache.h` (single-threaded instantiation: the mutex is a
no-op, so public operations run atomically in sequence).

The C++ object holds two containers:
  * `keysToTimeAndValue_` (the primary index): a map from the key tuple to
    the pair (insertion timestamp, value); modelled as an association list
    `List (K × Nat × V)` with unique keys.
  * `timeToKeys_` (the recency index): a `std::set` of
    (timestamp, pointer-to-key) pairs; modelled as a duplicate-free list
    `List (Nat × K)` (the pointer dereferences to the key stored in the
    primary index, so its logical content is the key itself).

`SteadyTimePoint` and `SteadyDuration` are modelled as `Nat`.  The value
obtainer may raise, modelled as `K → Option V` (`none` = exception).  The
two `insert` calls of the insertion step may raise (resource exhaustion):
modelled by two boolean oracles.  A failed `sassert` aborts the process:
modelled as the `none` / `abort` outcome.
-/

namespace LruCache

/-- The cache state: the primary index (`keysToTimeAndValue_`) and the
recency index (`timeToKeys_`). -/
structure LruState (K V : Type) where
  primary : List (K × Nat × V)
  recency : List (Nat × K)
deriving DecidableEq, Repr

/-- Configuration fixed at construction: `maxTime_` and `maxElements_`. -/
structure LruCfg where
  maxTime : Nat
  maxElements : Nat
deriving DecidableEq, Repr

/-- The empty cache (freshly constructed object). -/
def emptyState (K V : Type) : LruState K V := ⟨[], []⟩

variable {K V : Type}

/-- `keysToTimeAndValue_.find(keyTuple)`: lookup in the primary index. -/
def findPrimary [DecidableEq K] : List (K × Nat × V) → K → Option (Nat × V)
  | [], _ => none
  | (k', tv) :: rest, k => if k' = k then some tv else findPrimary rest k

/-- `keysToTimeAndValue_.erase(keyTuple)`: remove the entry for a key from
the primary index (a map holds at most one entry per key). -/
def erasePrimary [DecidableEq K] (l : List (K × Nat × V)) (k : K) :
    List (K × Nat × V) :=
  l.filter (fun p => p.1 ≠ k)

/-- `keysToTimeAndValue_.insert(...)`: `std::map::insert` inserts only when
the key is not present yet. -/
def insertPrimary [DecidableEq K] (l : List (K × Nat × V)) (k : K)
    (tv : Nat × V) : List (K × Nat × V) :=
  match findPrimary l k with
  | some _ => l
  | none => (k, tv) :: l

/-- `timeToKeys_.erase(tsAndKeys)`: remove one element from the recency
index (set semantics: all copies of it, of which a well-formed state has
exactly one). -/
def eraseRecency [DecidableEq K] (l : List (Nat × K)) (e : Nat × K) :
    List (Nat × K) :=
  l.filter (fun x => x ≠ e)

/-- `timeToKeys_.insert(tsAndKeys)`: `std::set::insert` inserts only when
the element is not present yet. -/
def insertRecency [DecidableEq K] (l : List (Nat × K)) (e : Nat × K) :
    List (Nat × K) :=
  if e ∈ l then l else e :: l

/-- The (timestamp, key) order of the recency index (`std::set` iteration
order; ties on the timestamp broken by the key order). -/
def lexLe [LinearOrder K] (a b : Nat × K) : Prop :=
  a.1 < b.1 ∨ (a.1 = b.1 ∧ a.2 ≤ b.2)

instance [LinearOrder K] (a b : Nat × K) : Decidable (lexLe a b) := by
  unfold lexLe; infer_instance

/-- Minimum of two recency entries in the (timestamp, key) order. -/
def pairMin [LinearOrder K] (a b : Nat × K) : Nat × K :=
  if a.1 < b.1 then a else if b.1 < a.1 then b else if a.2 ≤ b.2 then a else b

/-- `timeToKeys_.begin()`: the oldest entry of the recency index, i.e. the
minimum in the (timestamp, key) order; `none` when the index is empty. -/
def oldest [LinearOrder K] : List (Nat × K) → Option (Nat × K)
  | [] => none
  | e :: rest =>
    match oldest rest with
    | none => some e
    | some m => some (pairMin e m)

/-- Number of occurrences of an element in a list. -/
def occCount [DecidableEq α] (l : List α) (x : α) : Nat :=
  (l.filter (fun y => y = x)).length

/-- `cleanupWithoutLocking(currentTs, maxOperations)`: up to `maxOperations`
times, look at the oldest recency entry; stop when the index is empty;
evict it from both indexes when it is stale or the index is over capacity,
otherwise stop.  `none` models the `sassert` abort (a recency entry whose
key is missing from the primary index). -/
def cleanupWithoutLocking [LinearOrder K] (cfg : LruCfg) (currentTs : Nat) :
    Nat → LruState K V → Option (LruState K V)
  | 0, s => some s
  | n + 1, s =>
    match oldest s.recency with
    | none => some s
    | some e =>
      if e.1 + cfg.maxTime < currentTs ∨ cfg.maxElements < s.recency.length then
        if (findPrimary s.primary e.2).isSome then
          cleanupWithoutLocking cfg currentTs n
            ⟨erasePrimary s.primary e.2, eraseRecency s.recency e⟩
        else none
      else some s

/-- `cleanup(currentTs, maxOperations)`: the public entry point; the lock
is a no-op in the single-threaded instantiation. -/
def cleanup [LinearOrder K] (cfg : LruCfg) (s : LruState K V)
    (currentTs : Nat) (maxOperations : Nat) : Option (LruState K V) :=
  cleanupWithoutLocking cfg currentTs maxOperations s

/-- Result of the first, locked phase of `get` (lines 46-59): a fresh hit
returning the stored value, or a miss (after erasing a stale entry from
both indexes) continuing to the obtainer, or an `sassert` abort. -/
inductive Phase1Result (K V : Type) where
  | hit (v : V)
  | miss (s : LruState K V)
  | abort
deriving DecidableEq, Repr

/-- First phase of `get`: look the key up; return the value when the entry
is fresh (`ts + maxTime_ >= currentTs`); when stale, erase it from both
indexes (the `sassert` demands the recency entry be present). -/
def getPhase1 [LinearOrder K] (cfg : LruCfg) (s : LruState K V)
    (currentTs : Nat) (k : K) : Phase1Result K V :=
  match findPrimary s.primary k with
  | some (ts, v) =>
    if currentTs ≤ ts + cfg.maxTime then
      Phase1Result.hit v
    else if (ts, k) ∈ s.recency then
      Phase1Result.miss ⟨erasePrimary s.primary k, eraseRecency s.recency (ts, k)⟩
    else
      Phase1Result.abort
  | none => Phase1Result.miss s

/-- Outcome of a `get` call: a returned value, a propagated obtainer
exception, a propagated insertion exception, or an `sassert` abort. -/
inductive GetOutcome (V : Type) where
  | ok (v : V)
  | obtainerErr
  | insertErr
  | abort
deriving DecidableEq, Repr

/-- The insertion step of `get` (lines 73-78): insert
(key, (currentTs, value)) into the primary index and (currentTs, key) into
the recency index. -/
def insertStep [DecidableEq K] (s : LruState K V) (currentTs : Nat) (k : K)
    (v : V) : LruState K V :=
  ⟨insertPrimary s.primary k (currentTs, v), insertRecency s.recency (currentTs, k)⟩

/-- The part of `get` after the obtainer returns (lines 67-90), on the
state seen after the lock is re-acquired: re-check the primary index and
return the just-computed value on a hit; otherwise run the insertion step
(the `catch` block erases the key from the primary index and re-throws when
either insert raises, modelled by the two boolean oracles) and then a
cleanup pass with budget 3. -/
def getResume [LinearOrder K] (cfg : LruCfg)
    (primaryInsertThrows recencyInsertThrows : Bool) (s : LruState K V)
    (currentTs : Nat) (k : K) (v : V) : GetOutcome V × LruState K V :=
  match findPrimary s.primary k with
  | some _ => (GetOutcome.ok v, s)
  | none =>
    if primaryInsertThrows then
      (GetOutcome.insertErr, ⟨erasePrimary s.primary k, s.recency⟩)
    else if recencyInsertThrows then
      (GetOutcome.insertErr,
        ⟨erasePrimary (insertPrimary s.primary k (currentTs, v)) k, s.recency⟩)
    else
      match cleanupWithoutLocking cfg currentTs 3 (insertStep s currentTs k v) with
      | some s2 => (GetOutcome.ok v, s2)
      | none => (GetOutcome.abort, insertStep s currentTs k v)

/-- `get(currentTs, keys...)` (single-threaded, so the state at re-lock is
the phase-1 state).  Returns the outcome, the final state, and whether the
value obtainer was invoked. -/
def get [LinearOrder K] (cfg : LruCfg) (obtainer : K → Option V)
    (primaryInsertThrows recencyInsertThrows : Bool) (s : LruState K V)
    (currentTs : Nat) (k : K) : GetOutcome V × LruState K V × Bool :=
  match getPhase1 cfg s currentTs k with
  | Phase1Result.hit v => (GetOutcome.ok v, s, false)
  | Phase1Result.abort => (GetOutcome.abort, s, false)
  | Phase1Result.miss s1 =>
    match obtainer k with
    | none => (GetOutcome.obtainerErr, s1, true)
    | some v =>
      let r := getResume cfg primaryInsertThrows recencyInsertThrows s1 currentTs k v
      (r.1, r.2, true)

/-- `erase(keys...)`: remove the entry for the key from both indexes when
present (the `sassert` demands the recency entry be present, `none` models
its abort); silently return otherwise. -/
def eraseOp [DecidableEq K] (s : LruState K V) (k : K) :
    Option (LruState K V) :=
  match findPrimary s.primary k with
  | none => some s
  | some tv =>
    if (tv.1, k) ∈ s.recency then
      some ⟨erasePrimary s.primary k, eraseRecency s.recency (tv.1, k)⟩
    else none

/-- Well-formedness of a cache state: every primary entry has exactly one
recency entry with the same timestamp; every recency entry points back to
a primary entry with the matching timestamp; the primary index has unique
keys; both indexes have the same size. -/
def Inv [DecidableEq K] (s : LruState K V) : Prop :=
  (∀ p ∈ s.primary, occCount s.recency (p.2.1, p.1) = 1) ∧
  (∀ e ∈ s.recency, ∃ p ∈ s.primary, p.1 = e.2 ∧ p.2.1 = e.1) ∧
  (s.primary.map Prod.fst).Nodup ∧
  s.primary.length = s.recency.length

instance [DecidableEq K] [DecidableEq V] (s : LruState K V) :
    Decidable (Inv s) := by
  unfold Inv; infer_instance

/-- States reachable from the empty cache by the public operations
`get`, `cleanup`, `erase` of the single-threaded cache. -/
inductive Reachable [LinearOrder K] (cfg : LruCfg) : LruState K V → Prop where
  | empty : Reachable cfg (emptyState K V)
  | getStep {s : LruState K V} (ob : K → Option V) (pT rT : Bool)
      (ts : Nat) (k : K) (out : GetOutcome V) (s' : LruState K V) (b : Bool) :
      Reachable cfg s → get cfg ob pT rT s ts k = (out, s', b) →
      Reachable cfg s'
  | cleanupStep {s : LruState K V} (ts n : Nat) (s' : LruState K V) :
      Reachable cfg s → cleanup cfg s ts n = some s' → Reachable cfg s'
  | eraseStep {s : LruState K V} (k : K) (s' : LruState K V) :
      Reachable cfg s → eraseOp s k = some s' → Reachable cfg s'

/-- States reachable from the empty cache by `get` calls alone (with no
insertion failures). -/
inductive ReachableGet [LinearOrder K] (cfg : LruCfg) : LruState K V → Prop where
  | empty : ReachableGet cfg (emptyState K V)
  | getStep {s : LruState K V} (ob : K → Option V) (ts : Nat) (k : K)
      (out : GetOutcome V) (s' : LruState K V) (b : Bool) :
      ReachableGet cfg s → get cfg ob false false s ts k = (out, s', b) →
      ReachableGet cfg s'

/-! ### Counting occurrences -/

theorem occCount_nil [DecidableEq α] (x : α) : occCount ([] : List α) x = 0 := rfl

theorem occCount_cons [DecidableEq α] (a : α) (l : List α) (x : α) :
    occCount (a :: l) x = (if a = x then 1 else 0) + occCount l x := by
  by_cases h : a = x <;>
    simp [occCount, List.filter_cons, h, Nat.add_comm]

theorem occCount_eq_zero [DecidableEq α] {l : List α} {x : α} :
    occCount l x = 0 ↔ x ∉ l := by
  induction l with
  | nil => simp [occCount_nil]
  | cons a t ih =>
    by_cases h : a = x
    · subst h
      simp [occCount_cons]
    · simp only [occCount_cons, if_neg h, Nat.zero_add, ih, List.mem_cons]
      constructor
      · intro hnt hor
        rcases hor with hx | hx
        · exact h hx.symm
        · exact hnt hx
      · intro hno hx
        exact hno (Or.inr hx)

theorem mem_of_occCount_eq_one [DecidableEq α] {l : List α} {x : α}
    (h : occCount l x = 1) : x ∈ l := by
  by_contra hx
  rw [← occCount_eq_zero] at hx
  omega

/-! ### Primary index lemmas -/

theorem findPrimary_eq_none [DecidableEq K] {l : List (K × Nat × V)} {k : K} :
    findPrimary l k = none ↔ ∀ tv : Nat × V, (k, tv) ∉ l := by
  induction l with
  | nil => simp [findPrimary]
  | cons p rest ih =>
    obtain ⟨k', tv'⟩ := p
    by_cases h : k' = k
    · subst h
      simp only [findPrimary, if_pos rfl]
      constructor
      · intro hc
        exact (Option.some_ne_none _ hc).elim
      · intro hall
        exact absurd (List.mem_cons_self _ _) (hall tv')
    · simp only [findPrimary, if_neg h, ih, List.mem_cons]
      constructor
      · intro hall tv hmem
        rcases hmem with heq | hmem
        · exact h (congrArg Prod.fst heq).symm
        · exact hall tv hmem
      · intro hall tv hmem
        exact hall tv (Or.inr hmem)

theorem findPrimary_mem [DecidableEq K] {l : List (K × Nat × V)} {k : K}
    {tv : Nat × V} (h : findPrimary l k = some tv) : (k, tv) ∈ l := by
  induction l with
  | nil => simp [findPrimary] at h
  | cons p rest ih =>
    obtain ⟨k', tv'⟩ := p
    by_cases hk : k' = k
    · subst hk
      simp [findPrimary] at h
      subst h
      exact List.mem_cons_self _ _
    · simp only [findPrimary, if_neg hk] at h
      exact List.mem_cons.mpr (Or.inr (ih h))

theorem not_mem_keys_of_none [DecidableEq K] {l : List (K × Nat × V)} {k : K}
    (h : findPrimary l k = none) : k ∉ l.map Prod.fst := by
  intro hk
  obtain ⟨p, hp, hpk⟩ := List.mem_map.mp hk
  have : (k, p.2) ∈ l := by
    have : p = (k, p.2) := by rw [← hpk]
    rwa [← this]
  exact findPrimary_eq_none.mp h p.2 this

theorem findPrimary_of_mem [DecidableEq K] {l : List (K × Nat × V)} {k : K}
    {tv : Nat × V} (hnd : (l.map Prod.fst).Nodup) (h : (k, tv) ∈ l) :
    findPrimary l k = some tv := by
  induction l with
  | nil => simp at h
  | cons p rest ih =>
    obtain ⟨k', tv'⟩ := p
    simp only [List.map_cons, List.nodup_cons] at hnd
    rcases List.mem_cons.mp h with heq | hmem
    · obtain ⟨h1, h2⟩ := Prod.mk.injEq .. ▸ heq
      simp [findPrimary, h1.symm, h2]
    · have hk : k' ≠ k := by
        intro hkk
        subst hkk
        exact hnd.1 (List.mem_map.mpr ⟨(k', tv), hmem, rfl⟩)
      simp only [findPrimary, if_neg hk]
      exact ih hnd.2 hmem

theorem nodup_keys_eq [DecidableEq K] {l : List (K × Nat × V)} {k : K}
    {a b : Nat × V} (hnd : (l.map Prod.fst).Nodup) (h1 : (k, a) ∈ l)
    (h2 : (k, b) ∈ l) : a = b := by
  have e1 := findPrimary_of_mem hnd h1
  have e2 := findPrimary_of_mem hnd h2
  rw [e1] at e2
  exact Option.some.injEq .. ▸ e2

theorem mem_erasePrimary [DecidableEq K] {l : List (K × Nat × V)} {k : K}
    {p : K × Nat × V} : p ∈ erasePrimary l k ↔ p ∈ l ∧ p.1 ≠ k := by
  simp [erasePrimary, List.mem_filter]

theorem findPrimary_erasePrimary [DecidableEq K] {l : List (K × Nat × V)}
    {k : K} : findPrimary (erasePrimary l k) k = none := by
  rw [findPrimary_eq_none]
  intro tv hmem
  exact (mem_erasePrimary.mp hmem).2 rfl

theorem erasePrimary_of_none [DecidableEq K] {l : List (K × Nat × V)} {k : K}
    (h : findPrimary l k = none) : erasePrimary l k = l := by
  rw [erasePrimary, List.filter_eq_self]
  intro p hp
  simp only [decide_eq_true_eq]
  intro hpk
  have : (k, p.2) ∈ l := by
    have hpe : p = (k, p.2) := by rw [← hpk]
    rwa [← hpe]
  exact findPrimary_eq_none.mp h p.2 this

theorem length_erasePrimary [DecidableEq K] {l : List (K × Nat × V)} {k : K}
    {tv : Nat × V} (hnd : (l.map Prod.fst).Nodup)
    (h : findPrimary l k = some tv) :
    (erasePrimary l k).length + 1 = l.length := by
  induction l with
  | nil => simp [findPrimary] at h
  | cons p rest ih =>
    obtain ⟨k', tv'⟩ := p
    simp only [List.map_cons, List.nodup_cons] at hnd
    by_cases hk : k' = k
    · subst hk
      have hrest : findPrimary rest k' = none := by
        rw [findPrimary_eq_none]
        intro tv2 hmem
        exact hnd.1 (List.mem_map.mpr ⟨(k', tv2), hmem, rfl⟩)
      have hdrop : erasePrimary ((k', tv') :: rest) k' = erasePrimary rest k' := by
        simp [erasePrimary, List.filter_cons]
      rw [hdrop, erasePrimary_of_none hrest]
      simp
    · simp only [findPrimary, if_neg hk] at h
      have := ih hnd.2 h
      simp only [erasePrimary, List.filter_cons] at *
      have hne : (decide ¬(k', tv').1 = k) = true := by
        simp [hk]
      rw [hne]
      simp only [if_true, List.length_cons]
      omega

theorem nodup_keys_erasePrimary [DecidableEq K] {l : List (K × Nat × V)}
    {k : K} (hnd : (l.map Prod.fst).Nodup) :
    ((erasePrimary l k).map Prod.fst).Nodup :=
  ((List.filter_sublist l).map Prod.fst).nodup hnd

/-! ### Recency index lemmas -/

theorem mem_eraseRecency [DecidableEq K] {l : List (Nat × K)} {e x : Nat × K} :
    x ∈ eraseRecency l e ↔ x ∈ l ∧ x ≠ e := by
  simp [eraseRecency, List.mem_filter]

theorem occCount_eraseRecency [DecidableEq K] {l : List (Nat × K)}
    {e x : Nat × K} (h : x ≠ e) :
    occCount (eraseRecency l e) x = occCount l x := by
  induction l with
  | nil => rfl
  | cons a t ih =>
    by_cases ha : a = e
    · subst ha
      have hxa : a ≠ x := fun hh => h hh.symm
      simp [eraseRecency, List.filter_cons, occCount_cons, hxa] at *
      exact ih
    · simp [eraseRecency, List.filter_cons, ha, occCount_cons] at *
      omega

theorem eraseRecency_of_not_mem [DecidableEq K] {l : List (Nat × K)}
    {e : Nat × K} (h : e ∉ l) : eraseRecency l e = l := by
  rw [eraseRecency, List.filter_eq_self]
  intro x hx
  simp only [decide_eq_true_eq]
  intro hxe
  exact h (hxe ▸ hx)

theorem length_eraseRecency [DecidableEq K] {l : List (Nat × K)} {e : Nat × K}
    (h : occCount l e = 1) : (eraseRecency l e).length + 1 = l.length := by
  induction l with
  | nil => simp [occCount_nil] at h
  | cons a t ih =>
    by_cases ha : a = e
    · subst ha
      rw [occCount_cons, if_pos rfl] at h
      have ht : a ∉ t := occCount_eq_zero.mp (by omega)
      have hdrop : eraseRecency (a :: t) a = eraseRecency t a := by
        simp [eraseRecency, List.filter_cons]
      rw [hdrop, eraseRecency_of_not_mem ht]
      simp
    · rw [occCount_cons, if_neg ha] at h
      have := ih (by omega)
      simp only [eraseRecency, List.filter_cons] at *
      have hne : (decide ¬a = e) = true := by simp [ha]
      rw [hne]
      simp only [if_true, List.length_cons]
      omega

/-! ### Oldest-entry lemmas -/

theorem lexLe_refl [LinearOrder K] (a : Nat × K) : lexLe a a :=
  Or.inr ⟨rfl, le_refl _⟩

theorem lexLe_trans [LinearOrder K] {a b c : Nat × K} (h1 : lexLe a b)
    (h2 : lexLe b c) : lexLe a c := by
  rcases h1 with h1 | ⟨h1, h1'⟩ <;> rcases h2 with h2 | ⟨h2, h2'⟩
  · exact Or.inl (by omega)
  · exact Or.inl (by omega)
  · exact Or.inl (by omega)
  · exact Or.inr ⟨by omega, h1'.trans h2'⟩

theorem pairMin_cases [LinearOrder K] (a b : Nat × K) :
    pairMin a b = a ∨ pairMin a b = b := by
  unfold pairMin
  split_ifs <;> simp

theorem lexLe_pairMin_left [LinearOrder K] (a b : Nat × K) :
    lexLe (pairMin a b) a := by
  unfold pairMin
  split_ifs with h1 h2 h3
  · exact lexLe_refl a
  · exact Or.inl h2
  · exact lexLe_refl a
  · exact Or.inr ⟨by omega, le_of_not_le h3⟩

theorem lexLe_pairMin_right [LinearOrder K] (a b : Nat × K) :
    lexLe (pairMin a b) b := by
  unfold pairMin
  split_ifs with h1 h2 h3
  · exact Or.inl h1
  · exact lexLe_refl b
  · exact Or.inr ⟨by omega, h3⟩
  · exact lexLe_refl b

theorem oldest_eq_none [LinearOrder K] {l : List (Nat × K)} :
    oldest l = none ↔ l = [] := by
  cases l with
  | nil => simp [oldest]
  | cons a t =>
    simp only [oldest]
    cases oldest t <;> simp

theorem oldest_mem [LinearOrder K] {l : List (Nat × K)} {e : Nat × K}
    (h : oldest l = some e) : e ∈ l := by
  induction l with
  | nil => simp [oldest] at h
  | cons a t ih =>
    simp only [oldest] at h
    cases ht : oldest t with
    | none =>
      rw [ht] at h
      simp at h
      exact h ▸ List.mem_cons_self _ _
    | some m =>
      rw [ht] at h
      simp at h
      rcases pairMin_cases a m with hc | hc

      · exact (h ▸ hc) ▸ List.mem_cons_self _ _
      · exact List.mem_cons.mpr (Or.inr (ih ((h ▸ hc) ▸ ht)))

theorem oldest_min [LinearOrder K] {l : List (Nat × K)} :
    ∀ {e : Nat × K}, oldest l = some e → ∀ x ∈ l, lexLe e x := by
  induction l with
  | nil =>
    intro e h
    simp [oldest] at h
  | cons a t ih =>
    intro e h
    simp only [oldest] at h
    cases ht : oldest t with
    | none =>
      rw [ht] at h
      simp only [Option.some.injEq] at h
      have htn : t = [] := oldest_eq_none.mp ht
      subst htn
      intro x hx
      simp at hx
      rw [← h, hx]
      exact lexLe_refl a
    | some m =>
      rw [ht] at h
      simp only [Option.some.injEq] at h
      intro x hx
      rw [← h]
      rcases List.mem_cons.mp hx with hxa | hxt
      · rw [hxa]
        exact lexLe_pairMin_left a m
      · exact lexLe_trans (lexLe_pairMin_right a m) (ih ht x hxt)

/-! ### Invariant lemmas -/

theorem inv_empty [DecidableEq K] : Inv (emptyState K V) := by
  refine ⟨?_, ?_, ?_, rfl⟩ <;> simp [emptyState]

theorem inv_mem_recency [DecidableEq K] {s : LruState K V}
    (h : Inv s) {p : K × Nat × V} (hp : p ∈ s.primary) :
    (p.2.1, p.1) ∈ s.recency :=
  mem_of_occCount_eq_one (h.1 p hp)

theorem inv_occCount [DecidableEq K] {s : LruState K V} (h : Inv s)
    {e : Nat × K} (he : e ∈ s.recency) : occCount s.recency e = 1 := by
  obtain ⟨p, hp, h1, h2⟩ := h.2.1 e he
  have : (p.2.1, p.1) = e := by
    rw [h1, h2]
  exact this ▸ h.1 p hp

theorem inv_findPrimary_of_recency [DecidableEq K] {s : LruState K V}
    (h : Inv s) {t : Nat} {k : K} (he : (t, k) ∈ s.recency) :
    ∃ v, findPrimary s.primary k = some (t, v) := by
  obtain ⟨p, hp, h1, h2⟩ := h.2.1 (t, k) he
  refine ⟨p.2.2, ?_⟩
  have hpe : p = (k, (t, p.2.2)) := Prod.ext h1 (Prod.ext h2 rfl)
  exact findPrimary_of_mem h.2.2.1 (hpe ▸ hp)

theorem inv_recency_of_findPrimary [DecidableEq K] {s : LruState K V}
    (h : Inv s) {t : Nat} {k : K} {v : V}
    (hf : findPrimary s.primary k = some (t, v)) : (t, k) ∈ s.recency :=
  inv_mem_recency h (findPrimary_mem hf)

theorem inv_not_mem_recency [DecidableEq K] {s : LruState K V} (h : Inv s)
    {t : Nat} {k : K} (hf : findPrimary s.primary k = none) :
    (t, k) ∉ s.recency := by
  intro hmem
  obtain ⟨v, hv⟩ := inv_findPrimary_of_recency h hmem
  rw [hf] at hv
  exact Option.noConfusion hv

theorem inv_eraseBoth [DecidableEq K] {s : LruState K V} (h : Inv s)
    {k : K} {ts : Nat} {v : V} (hf : findPrimary s.primary k = some (ts, v)) :
    Inv (⟨erasePrimary s.primary k, eraseRecency s.recency (ts, k)⟩ :
      LruState K V) := by
  have hc1 := h.1
  have hc2 := h.2.1
  have hnd := h.2.2.1
  have hlen := h.2.2.2
  refine ⟨?_, ?_, nodup_keys_erasePrimary hnd, ?_⟩
  · intro p hp
    obtain ⟨hpmem, hpk⟩ := mem_erasePrimary.mp hp
    have hne : (p.2.1, p.1) ≠ (ts, k) := by
      intro hh
      exact hpk (congrArg Prod.snd hh)
    rw [occCount_eraseRecency hne]
    exact hc1 p hpmem
  · intro e he
    obtain ⟨hemem, hene⟩ := mem_eraseRecency.mp he
    obtain ⟨p, hp, h1, h2⟩ := hc2 e hemem
    refine ⟨p, mem_erasePrimary.mpr ⟨hp, ?_⟩, h1, h2⟩
    intro hpk
    have hkmem : (k, p.2) ∈ s.primary := by
      have hpe : p = (k, p.2) := by rw [← hpk]
      exact hpe ▸ hp
    have := nodup_keys_eq hnd hkmem (findPrimary_mem hf)
    apply hene
    have he1 : e.1 = ts := by rw [← h2, this]
    have he2 : e.2 = k := by rw [← h1, hpk]
    exact Prod.ext he1 he2
  · have e1 := length_erasePrimary hnd hf
    have e2 := length_eraseRecency (inv_occCount h (inv_recency_of_findPrimary h hf))
    simp only at *
    omega

theorem inv_insert [DecidableEq K] {s : LruState K V} (h : Inv s) {k : K}
    {ts : Nat} {v : V} (hf : findPrimary s.primary k = none) :
    Inv (⟨(k, (ts, v)) :: s.primary, (ts, k) :: s.recency⟩ : LruState K V) := by
  obtain ⟨hc1, hc2, hnd, hlen⟩ := h
  have hrk : (ts, k) ∉ s.recency := inv_not_mem_recency ⟨hc1, hc2, hnd, hlen⟩ hf
  refine ⟨?_, ?_, ?_, ?_⟩
  · intro p hp
    rcases List.mem_cons.mp hp with hpe | hpm
    · subst hpe
      simp only [occCount_cons]
      rw [occCount_eq_zero.mpr hrk]
      simp
    · have hne : (ts, k) ≠ (p.2.1, p.1) := by
        intro hh
        have : p.1 = k := (congrArg Prod.snd hh).symm
        have hkmem : (k, p.2) ∈ s.primary := by
          have hpe : p = (k, p.2) := by rw [← this]
          exact hpe ▸ hpm
        exact findPrimary_eq_none.mp hf p.2 hkmem
      simp only [occCount_cons, if_neg hne, Nat.zero_add]
      exact hc1 p hpm
  · intro e he
    rcases List.mem_cons.mp he with hee | hem
    · exact ⟨(k, (ts, v)), List.mem_cons_self _ _, by rw [hee], by rw [hee]⟩
    · obtain ⟨p, hp, h1, h2⟩ := hc2 e hem
      exact ⟨p, List.mem_cons.mpr (Or.inr hp), h1, h2⟩
  · simp only [List.map_cons, List.nodup_cons]
    exact ⟨not_mem_keys_of_none hf, hnd⟩
  · simp only [List.length_cons]
    omega

theorem insertStep_eq [DecidableEq K] {s : LruState K V} {k : K} {ts : Nat}
    {v : V} (hf : findPrimary s.primary k = none)
    (hr : (ts, k) ∉ s.recency) :
    insertStep s ts k v =
      (⟨(k, (ts, v)) :: s.primary, (ts, k) :: s.recency⟩ : LruState K V) := by
  unfold insertStep insertPrimary insertRecency
  rw [hf, if_neg hr]

/-! ### Cleanup specification -/

theorem cleanup_spec [LinearOrder K] (cfg : LruCfg) (ts : Nat) :
    ∀ (n : Nat) (s : LruState K V), Inv s →
    ∃ s', cleanupWithoutLocking cfg ts n s = some s' ∧ Inv s' ∧
      s'.recency.length ≤ max cfg.maxElements (s.recency.length - n) ∧
      s.recency.length ≤ s'.recency.length + n ∧
      (∀ x ∈ s'.recency, x ∈ s.recency) := by
  intro n
  induction n with
  | zero =>
    intro s h
    exact ⟨s, rfl, h, by simp, by omega, fun x hx => hx⟩
  | succ n ih =>
    intro s h
    cases holdest : oldest s.recency with
    | none =>
      refine ⟨s, ?_, h, ?_, by omega, fun x hx => hx⟩
      · simp only [cleanupWithoutLocking, holdest]
      · have : s.recency = [] := oldest_eq_none.mp holdest
        rw [this]
        simp
    | some e =>
      by_cases hcond : e.1 + cfg.maxTime < ts ∨ cfg.maxElements < s.recency.length
      · have hemem : e ∈ s.recency := oldest_mem holdest
        have hemem' : (e.1, e.2) ∈ s.recency := by
          rwa [Prod.mk.eta]
        obtain ⟨v, hv⟩ := inv_findPrimary_of_recency h hemem'
        have hocc : occCount s.recency e = 1 := inv_occCount h hemem
        have hinv1 : Inv (⟨erasePrimary s.primary e.2,
            eraseRecency s.recency (e.1, e.2)⟩ : LruState K V) :=
          inv_eraseBoth h hv
        rw [Prod.mk.eta] at hinv1
        have hlen1 : (eraseRecency s.recency e).length + 1 = s.recency.length :=
          length_eraseRecency hocc
        obtain ⟨s', heq, hinv', hub, hlb, hsub⟩ :=
          ih (⟨erasePrimary s.primary e.2, eraseRecency s.recency e⟩ :
            LruState K V) hinv1
        refine ⟨s', ?_, hinv', ?_, ?_, ?_⟩
        · simp only [cleanupWithoutLocking, holdest, if_pos hcond, hv,
            Option.isSome_some, if_pos]
          exact heq
        · simp only at hub
          omega
        · simp only at hlb
          omega
        · intro x hx
          exact (mem_eraseRecency.mp (hsub x hx)).1
      · refine ⟨s, ?_, h, ?_, by omega, fun x hx => hx⟩
        · simp only [cleanupWithoutLocking, holdest, if_neg hcond]
        · push_neg at hcond
          omega

/-! ### Phase-1 lemmas -/

theorem phase1_miss_absent [LinearOrder K] {cfg : LruCfg} {s s1 : LruState K V}
    {ts : Nat} {k : K} (h : getPhase1 cfg s ts k = Phase1Result.miss s1) :
    findPrimary s1.primary k = none := by
  unfold getPhase1 at h
  cases hf : findPrimary s.primary k with
  | none =>
    rw [hf] at h
    simp at h
    rw [← h]
    exact hf
  | some tv =>
    obtain ⟨t, v⟩ := tv
    rw [hf] at h
    by_cases hfresh : ts ≤ t + cfg.maxTime
    · simp [hfresh] at h
    · by_cases hmem : (t, k) ∈ s.recency
      · simp only [if_neg hfresh, if_pos hmem, Phase1Result.miss.injEq] at h
        rw [← h]
        exact findPrimary_erasePrimary
      · simp [hfresh, hmem] at h

theorem phase1_not_abort [LinearOrder K] {cfg : LruCfg} {s : LruState K V}
    {ts : Nat} {k : K} (h : Inv s) :
    getPhase1 cfg s ts k ≠ Phase1Result.abort := by
  unfold getPhase1
  cases hf : findPrimary s.primary k with
  | none => simp
  | some tv =>
    obtain ⟨t, v⟩ := tv
    have hmem : (t, k) ∈ s.recency := inv_recency_of_findPrimary h hf
    by_cases hfresh : ts ≤ t + cfg.maxTime
    · simp [hfresh]
    · simp [hfresh, hmem]

theorem phase1_miss_inv [LinearOrder K] {cfg : LruCfg} {s s1 : LruState K V}
    {ts : Nat} {k : K} (h : Inv s)
    (hm : getPhase1 cfg s ts k = Phase1Result.miss s1) :
    Inv s1 ∧ s1.recency.length ≤ s.recency.length := by
  unfold getPhase1 at hm
  cases hf : findPrimary s.primary k with
  | none =>
    rw [hf] at hm
    simp at hm
    rw [← hm]
    exact ⟨h, le_refl _⟩
  | some tv =>
    obtain ⟨t, v⟩ := tv
    rw [hf] at hm
    by_cases hfresh : ts ≤ t + cfg.maxTime
    · simp [hfresh] at hm
    · by_cases hmem : (t, k) ∈ s.recency
      · simp only [if_neg hfresh, if_pos hmem, Phase1Result.miss.injEq] at hm
        have hinv := inv_eraseBoth h hf
        have hlen := length_eraseRecency (inv_occCount h hmem)
        rw [← hm]
        exact ⟨hinv, by simp only at *; omega⟩
      · simp [hfresh, hmem] at hm

/-! ### Get lemmas -/

theorem erasePrimary_insertPrimary [DecidableEq K] {l : List (K × Nat × V)}
    {k : K} {tv : Nat × V} (habs : findPrimary l k = none) :
    erasePrimary (insertPrimary l k tv) k = l := by
  unfold insertPrimary
  rw [habs]
  unfold erasePrimary
  rw [List.filter_cons]
  have hcond : (decide ¬((k, tv) : K × Nat × V).1 = k) = false := by simp
  rw [hcond]
  simp only [Bool.false_eq_true, if_false]
  exact erasePrimary_of_none habs

theorem getResume_race [LinearOrder K] {cfg : LruCfg} {s : LruState K V}
    {ts : Nat} {k : K} {v : V} {tv : Nat × V} (pT rT : Bool)
    (hf : findPrimary s.primary k = some tv) :
    getResume cfg pT rT s ts k v = (GetOutcome.ok v, s) := by
  unfold getResume
  rw [hf]

theorem getResume_insertErr [LinearOrder K] {cfg : LruCfg} {s : LruState K V}
    {ts : Nat} {k : K} {v : V} (pT rT : Bool)
    (habs : findPrimary s.primary k = none) (hthrow : pT = true ∨ rT = true) :
    getResume cfg pT rT s ts k v = (GetOutcome.insertErr, s) := by
  unfold getResume
  rw [habs]
  cases pT with
  | true =>
    rw [if_pos rfl, erasePrimary_of_none habs]
  | false =>
    cases rT with
    | false =>
      rcases hthrow with hc | hc <;> exact Bool.noConfusion hc
    | true =>
      rw [if_neg Bool.false_ne_true, if_pos rfl,
        erasePrimary_insertPrimary habs]

theorem getResume_ok [LinearOrder K] {cfg : LruCfg} {s : LruState K V}
    {t : Nat} {k : K} {v : V} (h : Inv s)
    (habs : findPrimary s.primary k = none) :
    ∃ s2, cleanupWithoutLocking cfg t 3 (insertStep s t k v) = some s2 ∧
      getResume cfg false false s t k v = (GetOutcome.ok v, s2) ∧ Inv s2 ∧
      s2.recency.length ≤ max cfg.maxElements (s.recency.length + 1 - 3) := by
  have hrk : (t, k) ∉ s.recency := inv_not_mem_recency h habs
  have hstep := insertStep_eq (v := v) habs hrk
  have hinv1 : Inv (insertStep s t k v) := by
    rw [hstep]
    exact inv_insert h habs
  obtain ⟨s2, heq, hinv2, hub, _, _⟩ := cleanup_spec cfg t 3 _ hinv1
  refine ⟨s2, heq, ?_, hinv2, ?_⟩
  · unfold getResume
    rw [habs, if_neg Bool.false_ne_true, if_neg Bool.false_ne_true, heq]
  · have hlen : (insertStep s t k v).recency.length = s.recency.length + 1 := by
      rw [hstep]
      simp
    omega

theorem get_eq_hit [LinearOrder K] {cfg : LruCfg} {s : LruState K V}
    {ts : Nat} {k : K} {v : V} (ob : K → Option V) (pT rT : Bool)
    (hp : getPhase1 cfg s ts k = Phase1Result.hit v) :
    get cfg ob pT rT s ts k = (GetOutcome.ok v, s, false) := by
  unfold get
  rw [hp]

theorem get_eq_obtainerErr [LinearOrder K] {cfg : LruCfg}
    {s s1 : LruState K V} {ts : Nat} {k : K} {ob : K → Option V}
    (pT rT : Bool) (hp : getPhase1 cfg s ts k = Phase1Result.miss s1)
    (hob : ob k = none) :
    get cfg ob pT rT s ts k = (GetOutcome.obtainerErr, s1, true) := by
  unfold get
  rw [hp, hob]

theorem get_eq_resume [LinearOrder K] {cfg : LruCfg} {s s1 : LruState K V}
    {ts : Nat} {k : K} {v : V} {ob : K → Option V} (pT rT : Bool)
    (hp : getPhase1 cfg s ts k = Phase1Result.miss s1) (hob : ob k = some v) :
    get cfg ob pT rT s ts k =
      ((getResume cfg pT rT s1 ts k v).1, (getResume cfg pT rT s1 ts k v).2,
        true) := by
  unfold get
  rw [hp, hob]

theorem get_inv [LinearOrder K] {cfg : LruCfg} (ob : K → Option V)
    (pT rT : Bool) {s : LruState K V} (ts : Nat) (k : K) (h : Inv s) :
    Inv (get cfg ob pT rT s ts k).2.1 ∧
    (get cfg ob pT rT s ts k).2.1.recency.length ≤
      max cfg.maxElements s.recency.length := by
  cases hp : getPhase1 cfg s ts k with
  | hit v =>
    rw [get_eq_hit ob pT rT hp]
    exact ⟨h, le_max_of_le_right (le_refl _)⟩
  | abort =>
    exact absurd hp (phase1_not_abort h)
  | miss s1 =>
    obtain ⟨hinv1, hlen1⟩ := phase1_miss_inv h hp
    have habs : findPrimary s1.primary k = none := phase1_miss_absent hp
    cases hob : ob k with
    | none =>
      rw [get_eq_obtainerErr pT rT hp hob]
      exact ⟨hinv1, le_max_of_le_right hlen1⟩
    | some v =>
      rw [get_eq_resume pT rT hp hob]
      cases pT with
      | true =>
        rw [getResume_insertErr true rT habs (Or.inl rfl)]
        exact ⟨hinv1, le_max_of_le_right hlen1⟩
      | false =>
        cases rT with
        | true =>
          rw [getResume_insertErr false true habs (Or.inr rfl)]
          exact ⟨hinv1, le_max_of_le_right hlen1⟩
        | false =>
          obtain ⟨s2, _, hres, hinv2, hub⟩ := getResume_ok (t := ts) (v := v)
            hinv1 habs
          rw [hres]
          refine ⟨hinv2, le_trans hub ?_⟩
          exact max_le_max (le_refl _) (by omega)

/-! ### Erase lemmas -/

theorem eraseOp_some_inv [DecidableEq K] {s : LruState K V} (k : K)
    (h : Inv s) :
    ∃ s', eraseOp s k = some s' ∧ Inv s' ∧
      s'.recency.length ≤ s.recency.length := by
  unfold eraseOp
  cases hf : findPrimary s.primary k with
  | none => exact ⟨s, rfl, h, le_refl _⟩
  | some tv =>
    obtain ⟨t, v⟩ := tv
    have hmem : (t, k) ∈ s.recency := inv_recency_of_findPrimary h hf
    simp only [if_pos hmem]
    refine ⟨_, rfl, inv_eraseBoth h hf, ?_⟩
    have := length_eraseRecency (inv_occCount h hmem)
    simp only at *
    omega

/-! ### Reachability invariant -/

theorem reachable_inv [LinearOrder K] {cfg : LruCfg} {s : LruState K V}
    (h : Reachable cfg s) :
    Inv s ∧ s.recency.length ≤ cfg.maxElements := by
  induction h with
  | empty =>
    exact ⟨inv_empty, by simp [emptyState]⟩
  | getStep ob pT rT ts k out s' b _ heq ih =>
    have h1 := @get_inv K V _ cfg ob pT rT _ ts k ih.1
    rw [heq] at h1
    simp only at h1
    exact ⟨h1.1, by omega⟩
  | cleanupStep ts n s' _ heq ih =>
    obtain ⟨s'', heq2, hinv, hub, _, _⟩ := cleanup_spec cfg ts n _ ih.1
    have heq' : cleanupWithoutLocking cfg ts n _ = some s' := heq
    rw [heq2] at heq'
    obtain rfl : s'' = s' := Option.some.inj heq'
    exact ⟨hinv, by omega⟩
  | eraseStep k s' _ heq ih =>
    obtain ⟨s'', heq2, hinv, hlen⟩ := eraseOp_some_inv k ih.1
    rw [heq2] at heq
    obtain rfl : s'' = s' := Option.some.inj heq
    exact ⟨hinv, by omega⟩

theorem reachableGet_reachable [LinearOrder K] {cfg : LruCfg}
    {s : LruState K V} (h : ReachableGet cfg s) : Reachable cfg s := by
  induction h with
  | empty => exact Reachable.empty
  | getStep ob ts k out s' b _ heq ih =>
    exact Reachable.getStep ob false false ts k out s' b ih heq

/-! ### Bridge lemmas shared by the claim theorems -/

theorem phase1_absent_miss [LinearOrder K] {cfg : LruCfg} {s : LruState K V}
    {ts : Nat} {k : K} (habs : findPrimary s.primary k = none) :
    getPhase1 cfg s ts k = Phase1Result.miss s := by
  simp [getPhase1, habs]

theorem phase1_stale_miss [LinearOrder K] {cfg : LruCfg} {s : LruState K V}
    {ts0 : Nat} {v0 : V} {k : K} {currentTs : Nat} (h : Inv s)
    (hfind : findPrimary s.primary k = some (ts0, v0))
    (hstale : ts0 + cfg.maxTime < currentTs) :
    getPhase1 cfg s currentTs k =
      Phase1Result.miss
        ⟨erasePrimary s.primary k, eraseRecency s.recency (ts0, k)⟩ := by
  have hmem : (ts0, k) ∈ s.recency := inv_recency_of_findPrimary h hfind
  have hnf : ¬ currentTs ≤ ts0 + cfg.maxTime := by omega
  simp [getPhase1, hfind, hnf, hmem]

theorem get_hit_of_fresh [LinearOrder K] {cfg : LruCfg} {s : LruState K V}
    {ts0 : Nat} {v0 : V} {k : K} {currentTs : Nat} (ob : K → Option V)
    (pT rT : Bool) (hfind : findPrimary s.primary k = some (ts0, v0))
    (hfresh : currentTs ≤ ts0 + cfg.maxTime) :
    get cfg ob pT rT s currentTs k = (GetOutcome.ok v0, s, false) := by
  apply get_eq_hit
  simp [getPhase1, hfind, hfresh]

theorem get_calls_obtainer_of_miss [LinearOrder K] {cfg : LruCfg}
    {s s1 : LruState K V} {ts : Nat} {k : K} (ob : K → Option V)
    (pT rT : Bool) (hp : getPhase1 cfg s ts k = Phase1Result.miss s1) :
    (get cfg ob pT rT s ts k).2.2 = true := by
  cases hob : ob k with
  | none => rw [get_eq_obtainerErr pT rT hp hob]
  | some v => rw [get_eq_resume pT rT hp hob]

/-! ### Claim theorems -/

/-- C1: Index consistency invariant.  In every state reachable from the
empty single-threaded cache by completed public operations (`get`,
`cleanup`, `erase`), every key tuple present in the primary index has
exactly one corresponding (timestamp, key) entry in the recency index with
the same timestamp, and every recency-index entry points to a
primary-index entry with the matching timestamp. -/
theorem reachable_index_consistency [LinearOrder K] {cfg : LruCfg}
    {s : LruState K V} (h : Reachable cfg s) :
    (∀ k ts v, (k, (ts, v)) ∈ s.primary → occCount s.recency (ts, k) = 1) ∧
    (∀ ts k, (ts, k) ∈ s.recency → ∃ v, (k, (ts, v)) ∈ s.primary) := by
  obtain ⟨hinv, _⟩ := reachable_inv h
  constructor
  · intro k ts v hmem
    exact hinv.1 (k, (ts, v)) hmem
  · intro ts k hmem
    obtain ⟨p, hp, h1, h2⟩ := hinv.2.1 (ts, k) hmem
    refine ⟨p.2.2, ?_⟩
    have hpe : p = (k, (ts, p.2.2)) := Prod.ext h1 (Prod.ext h2 rfl)
    exact hpe ▸ hp

/-- C1 witness: the state reached by one `get` on the empty cache
satisfies the index-consistency conclusion. -/
theorem reachable_index_consistency_witness :
    (∀ k ts v, (k, (ts, v)) ∈ ([(5, (0, 6))] : List (Nat × Nat × Nat)) →
      occCount ([(0, 5)] : List (Nat × Nat)) (ts, k) = 1) ∧
    (∀ ts k, (ts, k) ∈ ([(0, 5)] : List (Nat × Nat)) →
      ∃ v, (k, (ts, v)) ∈ ([(5, (0, 6))] : List (Nat × Nat × Nat))) :=
  reachable_index_consistency
    (Reachable.getStep (fun m => some (m + 1))
      false false 0 5 (GetOutcome.ok 6)
      (⟨[(5, (0, 6))], [(0, 5)]⟩ : LruState Nat Nat) true
      (Reachable.empty :
        Reachable (⟨10, 2⟩ : LruCfg) (emptyState Nat Nat))
      (by decide))

/-- C3 counterexample: with max age D = 5 and key 0 inserted at T = 0, a
`get` at exactly T' = T + D = 5 returns the cached value WITHOUT invoking
the obtainer, contradicting the claim that the obtainer is invoked at the
exact boundary T' = T + D. -/
theorem freshness_boundary_cex :
    (get (⟨5, 10⟩ : LruCfg) (fun _ => some 99) false false
      (⟨[(0, (0, 7))], [(0, 0)]⟩ : LruState Nat Nat) 5 0).2.2 = false ∧
    get (⟨5, 10⟩ : LruCfg) (fun _ => some 99) false false
      (⟨[(0, (0, 7))], [(0, 0)]⟩ : LruState Nat Nat) 5 0 =
      (GetOutcome.ok 7, ⟨[(0, (0, 7))], [(0, 0)]⟩, false) := by
  decide

/-- C3 amended: for a key inserted at time T in a cache with max age D,
`get` at T' ≤ T + D returns the cached value without invoking the
obtainer, and `get` at T' > T + D invokes the obtainer again (the
staleness test of the code is `ts + maxTime_ < currentTs`, so at the exact
boundary T' = T + D the entry is still fresh). -/
theorem freshness_amended [LinearOrder K] {cfg : LruCfg} {s : LruState K V}
    {k : K} {T : Nat} {v0 : V} (ob : K → Option V) (h : Inv s)
    (hfind : findPrimary s.primary k = some (T, v0)) (Tq : Nat) :
    (Tq ≤ T + cfg.maxTime →
      get cfg ob false false s Tq k = (GetOutcome.ok v0, s, false)) ∧
    (T + cfg.maxTime < Tq → (get cfg ob false false s Tq k).2.2 = true) := by
  constructor
  · intro hfresh
    exact get_hit_of_fresh ob false false hfind hfresh
  · intro hstale
    exact get_calls_obtainer_of_miss ob false false
      (phase1_stale_miss h hfind hstale)

/-- C3 amended witness: at max age 5, key 0 inserted at time 0 with value
7, evaluated at query time 6 (stale side exercised). -/
theorem freshness_amended_witness :
    (6 ≤ 0 + (⟨5, 10⟩ : LruCfg).maxTime →
      get (⟨5, 10⟩ : LruCfg) (fun _ => some 99) false false
        (⟨[(0, (0, 7))], [(0, 0)]⟩ : LruState Nat Nat) 6 0 =
        (GetOutcome.ok 7, ⟨[(0, (0, 7))], [(0, 0)]⟩, false)) ∧
    (0 + (⟨5, 10⟩ : LruCfg).maxTime < 6 →
      (get (⟨5, 10⟩ : LruCfg) (fun _ => some 99) false false
        (⟨[(0, (0, 7))], [(0, 0)]⟩ : LruState Nat Nat) 6 0).2.2 = true) :=
  freshness_amended (fun _ => some 99) (by decide) (by decide) 6

/-- C7: Fresh-hit frame condition.  When the key is present and
`entry.timestamp + maxAge >= currentTime`, `get` returns the stored value
immediately, leaves the whole state unchanged, and does not invoke the
obtainer (for any obtainer and any insertion-failure oracles). -/
theorem fresh_hit_frame [LinearOrder K] {cfg : LruCfg} {s : LruState K V}
    {ts0 : Nat} {v0 : V} {k : K} {currentTs : Nat} (ob : K → Option V)
    (pT rT : Bool) (hfind : findPrimary s.primary k = some (ts0, v0))
    (hfresh : ts0 + cfg.maxTime ≥ currentTs) :
    get cfg ob pT rT s currentTs k = (GetOutcome.ok v0, s, false) :=
  get_hit_of_fresh ob pT rT hfind hfresh

/-- C7 witness: a fresh hit at time 3 on an entry inserted at time 0 with
max age 5 returns the stored value and changes nothing. -/
theorem fresh_hit_frame_witness :
    get (⟨5, 10⟩ : LruCfg) (fun _ => some 99) true true
      (⟨[(0, (0, 7))], [(0, 0)]⟩ : LruState Nat Nat) 3 0 =
      (GetOutcome.ok 7, ⟨[(0, (0, 7))], [(0, 0)]⟩, false) :=
  @fresh_hit_frame Nat Nat _ ⟨5, 10⟩ ⟨[(0, (0, 7))], [(0, 0)]⟩ 0 7 0 3
    (fun _ => some 99) true true (by decide) (by decide)

/-- C5: Capacity bound.  In every state reachable from the empty cache by
completed `get` calls, the number of cached entries (in either index) is
at most `maxElements_ + 1`. -/
theorem capacity_bound [LinearOrder K] {cfg : LruCfg} {s : LruState K V}
    (h : ReachableGet cfg s) :
    s.primary.length ≤ cfg.maxElements + 1 ∧
    s.recency.length ≤ cfg.maxElements + 1 := by
  obtain ⟨hinv, hlen⟩ := reachable_inv (reachableGet_reachable h)
  have heq := hinv.2.2.2
  omega

/-- C5 witness: the state reached by one `get` on the empty cache with
max element count 2 has at most 3 entries in each index. -/
theorem capacity_bound_witness :
    ([(5, (0, 6))] : List (Nat × Nat × Nat)).length ≤
      (⟨10, 2⟩ : LruCfg).maxElements + 1 ∧
    ([(0, 5)] : List (Nat × Nat)).length ≤ (⟨10, 2⟩ : LruCfg).maxElements + 1 :=
  capacity_bound
    (ReachableGet.getStep (fun m => some (m + 1))
      0 5 (GetOutcome.ok 6) (⟨[(5, (0, 6))], [(0, 5)]⟩ : LruState Nat Nat)
      true
      (ReachableGet.empty :
        ReachableGet (⟨10, 2⟩ : LruCfg) (emptyState Nat Nat))
      (by decide))

/-- C4: Eviction logic of `cleanupWithoutLocking` with budget
`maxOperations`: with budget 0 nothing happens; an empty recency index
stops the pass; each iteration examines the single oldest entry (the
minimum in the (timestamp, key) order); that entry is evicted from both
indexes exactly when it is stale (`timestamp + maxAge < currentTime`) or
the recency index size exceeds `maxElements_`, and otherwise the pass
stops immediately; and a pass with budget n removes at most n entries and
never adds any. -/
theorem eviction_logic [LinearOrder K] (cfg : LruCfg) (ts n : Nat)
    {s : LruState K V} (h : Inv s) :
    cleanupWithoutLocking cfg ts 0 s = some s ∧
    (s.recency = [] → cleanupWithoutLocking cfg ts (n + 1) s = some s) ∧
    (∀ e, oldest s.recency = some e →
      e ∈ s.recency ∧ ∀ x ∈ s.recency, lexLe e x) ∧
    (∀ e, oldest s.recency = some e →
      ((e.1 + cfg.maxTime < ts ∨ cfg.maxElements < s.recency.length) →
        cleanupWithoutLocking cfg ts (n + 1) s =
          cleanupWithoutLocking cfg ts n
            ⟨erasePrimary s.primary e.2, eraseRecency s.recency e⟩) ∧
      (¬(e.1 + cfg.maxTime < ts ∨ cfg.maxElements < s.recency.length) →
        cleanupWithoutLocking cfg ts (n + 1) s = some s)) ∧
    (∃ s', cleanupWithoutLocking cfg ts n s = some s' ∧
      s.recency.length ≤ s'.recency.length + n ∧
      ∀ x ∈ s'.recency, x ∈ s.recency) := by
  refine ⟨rfl, ?_, ?_, ?_, ?_⟩
  · intro hnil
    have holdest : oldest s.recency = none := by
      rw [hnil]
      rfl
    simp only [cleanupWithoutLocking, holdest]
  · intro e he
    exact ⟨oldest_mem he, oldest_min he⟩
  · intro e he
    constructor
    · intro hcond
      have hemem : (e.1, e.2) ∈ s.recency := by
        rw [Prod.mk.eta]
        exact oldest_mem he
      obtain ⟨v, hv⟩ := inv_findPrimary_of_recency h hemem
      simp only [cleanupWithoutLocking, he, if_pos hcond, hv,
        Option.isSome_some, if_pos]
    · intro hcond
      simp only [cleanupWithoutLocking, he, if_neg hcond]
  · obtain ⟨s', heq, _, _, hlb, hsub⟩ := cleanup_spec cfg ts n s h
    exact ⟨s', heq, hlb, hsub⟩

/-- C4 witness: a cleanup pass with budget 1 at time 20 on a singleton
cache (entry inserted at time 0, max age 10: stale) evicts the entry. -/
theorem eviction_logic_witness :
    cleanupWithoutLocking (⟨10, 2⟩ : LruCfg) 20 0
      (⟨[(5, (0, 6))], [(0, 5)]⟩ : LruState Nat Nat) =
      some ⟨[(5, (0, 6))], [(0, 5)]⟩ ∧
    (([(0, 5)] : List (Nat × Nat)) = [] →
      cleanupWithoutLocking (⟨10, 2⟩ : LruCfg) 20 1
        (⟨[(5, (0, 6))], [(0, 5)]⟩ : LruState Nat Nat) =
        some ⟨[(5, (0, 6))], [(0, 5)]⟩) ∧
    (∀ e, oldest ([(0, 5)] : List (Nat × Nat)) = some e →
      e ∈ ([(0, 5)] : List (Nat × Nat)) ∧
      ∀ x ∈ ([(0, 5)] : List (Nat × Nat)), lexLe e x) ∧
    (∀ e, oldest ([(0, 5)] : List (Nat × Nat)) = some e →
      ((e.1 + (⟨10, 2⟩ : LruCfg).maxTime < 20 ∨
          (⟨10, 2⟩ : LruCfg).maxElements <
            ([(0, 5)] : List (Nat × Nat)).length) →
        cleanupWithoutLocking (⟨10, 2⟩ : LruCfg) 20 1
          (⟨[(5, (0, 6))], [(0, 5)]⟩ : LruState Nat Nat) =
          cleanupWithoutLocking (⟨10, 2⟩ : LruCfg) 20 0
            ⟨erasePrimary [(5, (0, 6))] e.2, eraseRecency [(0, 5)] e⟩) ∧
      (¬(e.1 + (⟨10, 2⟩ : LruCfg).maxTime < 20 ∨
          (⟨10, 2⟩ : LruCfg).maxElements <
            ([(0, 5)] : List (Nat × Nat)).length) →
        cleanupWithoutLocking (⟨10, 2⟩ : LruCfg) 20 1
          (⟨[(5, (0, 6))], [(0, 5)]⟩ : LruState Nat Nat) =
          some ⟨[(5, (0, 6))], [(0, 5)]⟩)) ∧
    (∃ s', cleanupWithoutLocking (⟨10, 2⟩ : LruCfg) 20 0
        (⟨[(5, (0, 6))], [(0, 5)]⟩ : LruState Nat Nat) = some s' ∧
      ([(0, 5)] : List (Nat × Nat)).length ≤ s'.recency.length + 0 ∧
      ∀ x ∈ s'.recency, x ∈ ([(0, 5)] : List (Nat × Nat))) :=
  eviction_logic (⟨10, 2⟩ : LruCfg) 20 0 (by decide)

/-- C2: Miss path of `get`.  When the key is absent or stale, `get`
invokes the obtainer and returns exactly the value the obtainer produced;
when the key is absent at the post-obtainer re-check, `get` inserts
(currentTs, value) into the primary index and (currentTs, key) into the
recency index (then runs the budget-3 cleanup pass); when the key is
present at the re-check, `get` returns its own just-computed value and
leaves both indexes unchanged. -/
theorem get_miss_path [LinearOrder K] {cfg : LruCfg} {s : LruState K V}
    {ts : Nat} {k : K} {v : V} {ob : K → Option V} (h : Inv s)
    (hob : ob k = some v) :
    ((findPrimary s.primary k = none ∨
        ∀ ts0 v0, findPrimary s.primary k = some (ts0, v0) →
          ts0 + cfg.maxTime < ts) →
      (get cfg ob false false s ts k).1 = GetOutcome.ok v ∧
      (get cfg ob false false s ts k).2.2 = true) ∧
    (findPrimary s.primary k = none →
      (k, (ts, v)) ∈ (insertStep s ts k v).primary ∧
      (ts, k) ∈ (insertStep s ts k v).recency ∧
      ∃ s2, cleanupWithoutLocking cfg ts 3 (insertStep s ts k v) = some s2 ∧
        getResume cfg false false s ts k v = (GetOutcome.ok v, s2)) ∧
    (∀ tv, findPrimary s.primary k = some tv →
      getResume cfg false false s ts k v = (GetOutcome.ok v, s)) := by
  refine ⟨?_, ?_, ?_⟩
  · intro hcase
    have hmiss : ∃ s1, getPhase1 cfg s ts k = Phase1Result.miss s1 ∧
        Inv s1 ∧ findPrimary s1.primary k = none := by
      cases hf : findPrimary s.primary k with
      | none => exact ⟨s, phase1_absent_miss hf, h, hf⟩
      | some tv =>
        obtain ⟨t0, v0⟩ := tv
        have hstale : t0 + cfg.maxTime < ts := by
          rcases hcase with hc | hc
          · rw [hf] at hc
            exact Option.noConfusion hc
          · exact hc t0 v0 hf
        refine ⟨_, phase1_stale_miss h hf hstale, (inv_eraseBoth h hf), ?_⟩
        exact findPrimary_erasePrimary
    obtain ⟨s1, hp, hinv1, habs⟩ := hmiss
    rw [get_eq_resume false false hp hob]
    obtain ⟨s2, _, hres, _, _⟩ := getResume_ok (t := ts) (v := v) hinv1 habs
    rw [hres]
    exact ⟨rfl, rfl⟩
  · intro habs
    have hrk : (ts, k) ∉ s.recency := inv_not_mem_recency h habs
    have hstep := insertStep_eq (v := v) habs hrk
    obtain ⟨s2, hclean, hres, _, _⟩ := getResume_ok (t := ts) (v := v) h habs
    refine ⟨?_, ?_, s2, hclean, hres⟩
    · rw [hstep]
      exact List.mem_cons_self _ _
    · rw [hstep]
      exact List.mem_cons_self _ _
  · intro tv hf
    exact getResume_race false false hf

/-- C2 witness: a `get` on the empty cache for key 5 at time 0 with an
obtainer returning 6. -/
theorem get_miss_path_witness :
    ((findPrimary ([] : List (Nat × Nat × Nat)) 5 = none ∨
        ∀ ts0 v0, findPrimary ([] : List (Nat × Nat × Nat)) 5 =
          some (ts0, v0) → ts0 + (⟨10, 2⟩ : LruCfg).maxTime < 0) →
      (get (⟨10, 2⟩ : LruCfg) (fun m => some (m + 1)) false false
        (emptyState Nat Nat) 0 5).1 = GetOutcome.ok 6 ∧
      (get (⟨10, 2⟩ : LruCfg) (fun m => some (m + 1)) false false
        (emptyState Nat Nat) 0 5).2.2 = true) ∧
    (findPrimary ([] : List (Nat × Nat × Nat)) 5 = none →
      (5, (0, 6)) ∈ (insertStep (emptyState Nat Nat) 0 5 6).primary ∧
      (0, 5) ∈ (insertStep (emptyState Nat Nat) 0 5 6).recency ∧
      ∃ s2, cleanupWithoutLocking (⟨10, 2⟩ : LruCfg) 0 3
          (insertStep (emptyState Nat Nat) 0 5 6) = some s2 ∧
        getResume (⟨10, 2⟩ : LruCfg) false false (emptyState Nat Nat) 0 5 6 =
          (GetOutcome.ok 6, s2)) ∧
    (∀ tv, findPrimary ([] : List (Nat × Nat × Nat)) 5 = some tv →
      getResume (⟨10, 2⟩ : LruCfg) false false (emptyState Nat Nat) 0 5 6 =
        (GetOutcome.ok 6, emptyState Nat Nat)) :=
  @get_miss_path Nat Nat _ ⟨10, 2⟩ (emptyState Nat Nat) 0 5 6
    (fun m => some (m + 1)) (by decide) (by decide)

/-- C6: Rollback on insertion failure.  When the post-obtainer re-check
finds the key absent and either index insertion raises, `getResume`
returns the insertion error with both indexes restored to exactly the
pre-insertion state, and the full `get` propagates that error to its
caller with the phase-1 (pre-insertion) state. -/
theorem insert_rollback [LinearOrder K] {cfg : LruCfg} {s0 s : LruState K V}
    {ts : Nat} {k : K} {v : V} {ob : K → Option V} (pT rT : Bool)
    (hp : getPhase1 cfg s0 ts k = Phase1Result.miss s) (hob : ob k = some v)
    (hthrow : pT = true ∨ rT = true) :
    getResume cfg pT rT s ts k v = (GetOutcome.insertErr, s) ∧
    get cfg ob pT rT s0 ts k = (GetOutcome.insertErr, s, true) := by
  have habs := phase1_miss_absent hp
  have h1 := @getResume_insertErr K V _ cfg s ts k v pT rT habs hthrow
  refine ⟨h1, ?_⟩
  rw [get_eq_resume pT rT hp hob, h1]

/-- C6 witness: a recency-index insertion failure during a miss on the
empty cache leaves the cache empty and surfaces the error. -/
theorem insert_rollback_witness :
    getResume (⟨10, 2⟩ : LruCfg) false true (emptyState Nat Nat) 0 5 6 =
      (GetOutcome.insertErr, emptyState Nat Nat) ∧
    get (⟨10, 2⟩ : LruCfg) (fun m => some (m + 1)) false true
      (emptyState Nat Nat) 0 5 =
      (GetOutcome.insertErr, emptyState Nat Nat, true) :=
  insert_rollback false true (by decide) (by decide) (Or.inr rfl)

/-- C8: Erase semantics and idempotence.  `erase` removes a present entry
from both indexes unconditionally (no staleness or capacity check: the
call takes no current time at all), is a no-op when the key is absent,
and a second `erase` of the same key is a no-op and never errors. -/
theorem erase_semantics_idempotent [LinearOrder K] {s : LruState K V}
    (k : K) (h : Inv s) :
    (findPrimary s.primary k = none → eraseOp s k = some s) ∧
    (∀ ts v, findPrimary s.primary k = some (ts, v) →
      eraseOp s k =
        some ⟨erasePrimary s.primary k, eraseRecency s.recency (ts, k)⟩ ∧
      (∀ tv, (k, tv) ∉ erasePrimary s.primary k) ∧
      (∀ t, (t, k) ∉ eraseRecency s.recency (ts, k))) ∧
    (∀ s', eraseOp s k = some s' → eraseOp s' k = some s') := by
  refine ⟨?_, ?_, ?_⟩
  · intro hf
    simp [eraseOp, hf]
  · intro ts v hf
    have hmem : (ts, k) ∈ s.recency := inv_recency_of_findPrimary h hf
    refine ⟨?_, ?_, ?_⟩
    · simp [eraseOp, hf, hmem]
    · exact findPrimary_eq_none.mp findPrimary_erasePrimary
    · intro t hmem2
      obtain ⟨hmem2', hne⟩ := mem_eraseRecency.mp hmem2
      obtain ⟨v', hv'⟩ := inv_findPrimary_of_recency h hmem2'
      rw [hf] at hv'
      have ht : ts = t := (Prod.mk.injEq .. ▸ Option.some.inj hv').1
      exact hne (by rw [ht])
  · intro s' heq
    cases hf : findPrimary s.primary k with
    | none =>
      simp [eraseOp, hf] at heq
      rw [← heq]
      simp [eraseOp, hf]
    | some tv =>
      have hmem : (tv.1, k) ∈ s.recency := by
        have : findPrimary s.primary k = some (tv.1, tv.2) := by
          rw [Prod.mk.eta]
          exact hf
        exact inv_recency_of_findPrimary h this
      simp only [eraseOp, hf, if_pos hmem, Option.some.injEq] at heq
      rw [← heq]
      simp [eraseOp, findPrimary_erasePrimary]

/-- C8 witness: erasing key 0 from a singleton cache removes it from both
indexes; a second erase is a no-op. -/
theorem erase_semantics_idempotent_witness :
    (findPrimary ([(0, (0, 7))] : List (Nat × Nat × Nat)) 0 = none →
      eraseOp (⟨[(0, (0, 7))], [(0, 0)]⟩ : LruState Nat Nat) 0 =
        some ⟨[(0, (0, 7))], [(0, 0)]⟩) ∧
    (∀ ts v, findPrimary ([(0, (0, 7))] : List (Nat × Nat × Nat)) 0 =
        some (ts, v) →
      eraseOp (⟨[(0, (0, 7))], [(0, 0)]⟩ : LruState Nat Nat) 0 =
        some ⟨erasePrimary [(0, (0, 7))] 0, eraseRecency [(0, 0)] (ts, 0)⟩ ∧
      (∀ tv, (0, tv) ∉ erasePrimary ([(0, (0, 7))] : List (Nat × Nat × Nat)) 0) ∧
      (∀ t, (t, 0) ∉ eraseRecency ([(0, 0)] : List (Nat × Nat)) (ts, 0))) ∧
    (∀ s', eraseOp (⟨[(0, (0, 7))], [(0, 0)]⟩ : LruState Nat Nat) 0 =
        some s' → eraseOp s' 0 = some s') :=
  @erase_semantics_idempotent Nat Nat _ ⟨[(0, (0, 7))], [(0, 0)]⟩ 0
    (by decide)

/-- C9: Concrete eviction scenario.  With max age 10 and max element
count 2: get-inserting keys 0 at t=0, 1 at t=1 and 2 at t=2 leaves, after
the budget-3 cleanup pass that follows the third insertion, exactly keys
1 and 2 cached (key 0, the oldest, was evicted); a subsequent
`get(0, t=3)` finds key 0 absent and invokes the obtainer again. -/
theorem eviction_scenario :
    get (⟨10, 2⟩ : LruCfg) (fun m => some (m + 100)) false false
      (emptyState Nat Nat) 0 0 =
      (GetOutcome.ok 100, ⟨[(0, (0, 100))], [(0, 0)]⟩, true) ∧
    get (⟨10, 2⟩ : LruCfg) (fun m => some (m + 100)) false false
      (⟨[(0, (0, 100))], [(0, 0)]⟩ : LruState Nat Nat) 1 1 =
      (GetOutcome.ok 101,
        ⟨[(1, (1, 101)), (0, (0, 100))], [(1, 1), (0, 0)]⟩, true) ∧
    get (⟨10, 2⟩ : LruCfg) (fun m => some (m + 100)) false false
      (⟨[(1, (1, 101)), (0, (0, 100))], [(1, 1), (0, 0)]⟩ : LruState Nat Nat)
      2 2 =
      (GetOutcome.ok 102,
        ⟨[(2, (2, 102)), (1, (1, 101))], [(2, 2), (1, 1)]⟩, true) ∧
    findPrimary ([(2, (2, 102)), (1, (1, 101))] : List (Nat × Nat × Nat)) 0 =
      none ∧
    (get (⟨10, 2⟩ : LruCfg) (fun m => some (m + 100)) false false
      (⟨[(2, (2, 102)), (1, (1, 101))], [(2, 2), (1, 1)]⟩ : LruState Nat Nat)
      3 0).2.2 = true := by
  decide

/-- C10: Stale-entry removal survives obtainer failure.  When `get` finds
a stale entry and the obtainer then raises, the stale entry has already
been removed from both indexes: the error propagates, the final state is
the erased state (not the pre-call state), the cache no longer holds any
entry for the key, and a subsequent lookup for the key is a miss. -/
theorem stale_removal_obtainer_failure [LinearOrder K] {cfg : LruCfg}
    {s : LruState K V} {k : K} {ts0 : Nat} {v0 : V} {currentTs : Nat}
    {ob : K → Option V} (h : Inv s)
    (hfind : findPrimary s.primary k = some (ts0, v0))
    (hstale : ts0 + cfg.maxTime < currentTs) (hob : ob k = none) :
    get cfg ob false false s currentTs k =
      (GetOutcome.obtainerErr,
        ⟨erasePrimary s.primary k, eraseRecency s.recency (ts0, k)⟩, true) ∧
    findPrimary (erasePrimary s.primary k) k = (none : Option (Nat × V)) ∧
    (∀ t, (t, k) ∉ eraseRecency s.recency (ts0, k)) ∧
    (∀ t2, getPhase1 cfg
        (⟨erasePrimary s.primary k, eraseRecency s.recency (ts0, k)⟩ :
          LruState K V) t2 k =
      Phase1Result.miss
        ⟨erasePrimary s.primary k, eraseRecency s.recency (ts0, k)⟩) := by
  have hp := phase1_stale_miss h hfind hstale
  refine ⟨get_eq_obtainerErr false false hp hob, findPrimary_erasePrimary,
    ?_, ?_⟩
  · intro t hmem2
    obtain ⟨hmem2', hne⟩ := mem_eraseRecency.mp hmem2
    obtain ⟨v', hv'⟩ := inv_findPrimary_of_recency h hmem2'
    rw [hfind] at hv'
    have ht : ts0 = t := (Prod.mk.injEq .. ▸ Option.some.inj hv').1
    exact hne (by rw [ht])
  · intro t2
    exact phase1_absent_miss findPrimary_erasePrimary

/-- C10 witness: max age 5, entry for key 0 inserted at time 0, obtainer
failing, queried at time 6: the stale entry is gone and the error
surfaces. -/
theorem stale_removal_obtainer_failure_witness :
    get (⟨5, 10⟩ : LruCfg) (fun _ => (none : Option Nat)) false false
      (⟨[(0, (0, 7))], [(0, 0)]⟩ : LruState Nat Nat) 6 0 =
      (GetOutcome.obtainerErr,
        ⟨erasePrimary [(0, (0, 7))] 0, eraseRecency [(0, 0)] (0, 0)⟩, true) ∧
    findPrimary (erasePrimary ([(0, (0, 7))] : List (Nat × Nat × Nat)) 0) 0 =
      (none : Option (Nat × Nat)) ∧
    (∀ t, (t, 0) ∉ eraseRecency ([(0, 0)] : List (Nat × Nat)) (0, 0)) ∧
    (∀ t2, getPhase1 (⟨5, 10⟩ : LruCfg)
        (⟨erasePrimary [(0, (0, 7))] 0, eraseRecency [(0, 0)] (0, 0)⟩ :
          LruState Nat Nat) t2 0 =
      Phase1Result.miss
        ⟨erasePrimary [(0, (0, 7))] 0, eraseRecency [(0, 0)] (0, 0)⟩) :=
  @stale_removal_obtainer_failure Nat Nat _ ⟨5, 10⟩
    ⟨[(0, (0, 7))], [(0, 0)]⟩ 0 0 7 6 (fun _ => (none : Option Nat))
    (by decide) (by decide) (by decide) (by decide)

end LruCache
